import Mathlib

/-!
Verification of the test-runner-core specification against a shallow
embedding of the source.  Each section embeds one component:

* `Move`, `setStateCore` — the fsm-base `StateMachine.setState`
  (src/dist/tests.js lines 255-298), generic over the event-argument type.
* `Listener`, `emitD`, `emitP` — the two bundled obso `Emitter.emit`
  variants (src/dist/tests.js lines 39-65 and src/unnamed/part_001
  lines 92-110).
* `QState`, `fillGo`, `settleQ` — the bounded-concurrency job queue
  (src/lib/queue.mjs is absent from the sources; modelled from the spec).
* `Test.run` — the timeout-raced test unit (src/unnamed/part_001
  lines 7-57).
* `Tom`, `startFrom` — the orchestrator `TestRunnerCore`
  (src/unnamed/part_001 lines 444-643).
-/

/-- A JavaScript `Error` value: its `name` and `message`. -/
structure Err where
  name : String
  msg : String
deriving DecidableEq, Repr

/-- The apostrophe character used by fsm-base when quoting state names. -/
def quoteChar : String := String.singleton (Char.ofNat 39)

/-- fsm-base quotes a state name in its diagnostics. -/
def quoteState (s : String) : String := quoteChar ++ s ++ quoteChar

/-- `Array.prototype.join` with a separator. -/
def joinSep (sep : String) : List String → String
  | [] => ""
  | [x] => x
  | x :: xs => x ++ sep ++ joinSep sep xs

/-- A declared legal move of the state machine.  The fsm-base constructor
arrayifies `from` and `to`, so both are lists here (`from` is a Lean
keyword, hence the trailing underscore). -/
structure Move where
  from_ : List String
  to_ : List String
deriving DecidableEq, Repr

/-- Events emitted by `setState`: the generic `"state"` event carrying
(newState, prevState) and the event named after the new state carrying
the extra call arguments (of type `α`). -/
inductive SMEv (α : Type) where
  | stateChange (state prev : String)
  | named (state : String) (args : α)
deriving DecidableEq, Repr

/-- The message fsm-base builds when a destination is declared but the
current state is not a legal source for it (src/dist/tests.js lines
288-293).  The JS `reduce(flatten)` has no initial value and therefore
throws on an empty array; that branch is reached only when at least one
move lists the destination, in which case `reduce(flatten)` coincides
with `List.flatten`. -/
def canOnlyMsg (validMoves : List Move) (state prevState : String) : String :=
  let froms := ((validMoves.filter (fun m => m.to_.contains state)).map
    (fun m => m.from_.map quoteState)).flatten
  let joined := joinSep " or " froms
  "Can only move to " ++ quoteState state ++ " from " ++
    (if joined == "" then "<unspecified>" else joined) ++
    " (not " ++ quoteState prevState ++ ")"

/-- `StateMachine.setState` from src/dist/tests.js lines 255-298.
Returns the thrown error or the list of emitted events, together with
the machine state after the call (the JS object's `_state`, which is
left untouched on either error path and is re-assigned on every
matching iteration of the `forEach`).  `α` is the type of the extra
event arguments. -/
def setStateCore {α : Type} (cur : String) (validMoves : List Move)
    (state : String) (args : α) : Except Err (List (SMEv α)) × String :=
  if cur == state then (.ok [], cur)
  else
    let validTo := validMoves.any (fun m => m.to_.contains state)
    if !validTo then
      (.error ⟨"INVALID_MOVE", "Invalid state: " ++ state⟩, cur)
    else
      let prevState := cur
      let r := validMoves.foldl
        (fun (acc : String × Bool × List (SMEv α)) m =>
          if m.from_.contains acc.1 && m.to_.contains state then
            (state, true, acc.2.2 ++ [.stateChange state prevState, .named state args])
          else acc)
        (cur, false, [])
      if r.2.1 then (.ok r.2.2, r.1)
      else (.error ⟨"INVALID_MOVE", canOnlyMsg validMoves state prevState⟩, r.1)

/-- The declared moves of TestRunnerCore (src/unnamed/part_001 lines
450-454). -/
def runnerMoves : List Move :=
  [⟨["pending"], ["in-progress"]⟩,
   ⟨["in-progress"], ["pass"]⟩,
   ⟨["in-progress"], ["fail"]⟩]

/-- The move set of the C4 counterexample: both moves permit a → b, and
the second also lists b among its sources. -/
def cexMoves : List Move := [⟨["a"], ["b"]⟩, ⟨["a", "b"], ["b"]⟩]

/-- The side effect a handler performs on the emitter's listener array
when invoked: nothing, or a call to `removeEventListener`.  This is
enough to express the handlers the claims quantify over. -/
inductive HAction where
  | noAct
  | removeL (eventName : String) (handler : Nat)
deriving DecidableEq, Repr

/-- A record in the obso emitter's `_listeners` array
(`\x7beventName, handler, once\x7d`).  `regId` models the JavaScript object
identity of the record (each `on` call pushes a fresh object);
`handler` models the identity of the handler function; `action` models
the handler's side effect on the listener array. -/
structure Listener where
  regId : Nat
  eventName : String
  handler : Nat
  once : Bool
  action : HAction
deriving DecidableEq, Repr

/-- One handler invocation performed during an `emit`: which listener
record ran and the positional arguments it saw. -/
structure Invocation where
  regId : Nat
  args : List String
deriving DecidableEq, Repr

/-- `Emitter.removeEventListener` (src/dist/tests.js lines 117-123 and
src/unnamed/part_001 lines 132-138): remove the first record whose name
and handler both match; no-op when absent. -/
def removeEventListener (ls : List Listener) (en : String) (hd : Nat) :
    List Listener :=
  match ls.findIdx? (fun l => l.eventName == en && l.handler == hd) with
  | some i => ls.eraseIdx i
  | none => ls

/-- Apply a handler's side effect to the live listener array. -/
def applyAction : HAction → List Listener → List Listener
  | .noAct, ls => ls
  | .removeL en hd, ls => removeEventListener ls en hd

/-- Does a listener match an emitted event name (exact or wildcard)? -/
def matchesEv (l : Listener) (ev : String) : Bool :=
  l.eventName == "__ALL__" || l.eventName == ev

/-- The arguments a matching listener sees: wildcard listeners receive
the event name prefixed. -/
def invOf (ev : String) (args : List String) (l : Listener) : Invocation :=
  ⟨l.regId, if l.eventName == "__ALL__" then ev :: args else args⟩

/-- Handler side effects never grow the listener array (used for the
termination of the emit loops). -/
def applyAction_length_le (a : HAction) (ls : List Listener) :
    (applyAction a ls).length ≤ ls.length := by
  cases a with
  | noAct => exact Nat.le_refl _
  | removeL en hd =>
    simp only [applyAction, removeEventListener]
    cases hf : ls.findIdx? (fun x => x.eventName == en && x.handler == hd) with
    | none => exact Nat.le_refl _
    | some j => exact (List.eraseIdx_sublist ls j).length_le

/-- The `for...of` loop of `Emitter.emit` in src/dist/tests.js lines
44-56, modelled index-by-index over the LIVE `_listeners` array (a
handler's own `removeEventListener` mutates the array the loop is
walking).  A matching listener is invoked; a matching `once` listener is
queued on `toRemove`. -/
def emitLoopD (ev : String) (args : List String) (i : Nat) (ls : List Listener)
    (toRemove : List Listener) (inv : List Invocation) :
    List Listener × List Listener × List Invocation :=
  match hl : ls[i]? with
  | some l =>
    if matchesEv l ev then
      emitLoopD ev args (i + 1) (applyAction l.action ls)
        (if l.once then toRemove ++ [l] else toRemove)
        (inv ++ [invOf ev args l])
    else
      emitLoopD ev args (i + 1) ls toRemove inv
  | none => (ls, toRemove, inv)
termination_by ls.length - i
decreasing_by
  · obtain ⟨hi, -⟩ := List.getElem?_eq_some_iff.mp hl
    have hle := applyAction_length_le l.action ls
    omega
  · obtain ⟨hi, -⟩ := List.getElem?_eq_some_iff.mp hl
    omega

/-- The deferred removal phase of `emit` (src/dist/tests.js lines 58-60):
`this._listeners.splice(this._listeners.indexOf(listener), 1)` for each
queued record.  JS `indexOf` compares object identity, here record
equality (registration ids are unique).  When the record is already
gone, `indexOf` yields -1 and `splice(-1, 1)` removes the LAST element
(a no-op only on an empty array). -/
def spliceRemoveRecord (ls : List Listener) (l : Listener) : List Listener :=
  match ls.findIdx? (fun x => x == l) with
  | some i => ls.eraseIdx i
  | none => ls.dropLast

/-- `Emitter.emit` from src/dist/tests.js lines 39-65 (parent bubbling
omitted: the emitters under study have no parent).  Returns the listener
array after the emission and the invocations performed. -/
def emitD (ev : String) (args : List String) (ls : List Listener) :
    List Listener × List Invocation :=
  if 0 < ls.length then
    let r := emitLoopD ev args 0 ls [] []
    (r.2.1.foldl spliceRemoveRecord r.1, r.2.2)
  else (ls, [])

/-- The `forEach` loop of `Emitter.emit` in src/unnamed/part_001 lines
95-104.  NOTE: unlike the dist/tests.js variant, the `once` check sits
OUTSIDE the name-match test, so EVERY `once` listener is queued for
removal on any emission, matching or not. -/
def emitLoopP (ev : String) (args : List String) (i : Nat) (ls : List Listener)
    (toRemove : List Listener) (inv : List Invocation) :
    List Listener × List Listener × List Invocation :=
  match hl : ls[i]? with
  | some l =>
    if l.eventName == ev then
      emitLoopP ev args (i + 1) (applyAction l.action ls)
        (if l.once then toRemove ++ [l] else toRemove) (inv ++ [⟨l.regId, args⟩])
    else if l.eventName == "__ALL__" then
      emitLoopP ev args (i + 1) (applyAction l.action ls)
        (if l.once then toRemove ++ [l] else toRemove)
        (inv ++ [⟨l.regId, ev :: args⟩])
    else
      emitLoopP ev args (i + 1) ls
        (if l.once then toRemove ++ [l] else toRemove) inv
  | none => (ls, toRemove, inv)
termination_by ls.length - i
decreasing_by
  · obtain ⟨hi, -⟩ := List.getElem?_eq_some_iff.mp hl
    have hle := applyAction_length_le l.action ls
    omega
  · obtain ⟨hi, -⟩ := List.getElem?_eq_some_iff.mp hl
    have hle := applyAction_length_le l.action ls
    omega
  · obtain ⟨hi, -⟩ := List.getElem?_eq_some_iff.mp hl
    omega

/-- `Emitter.emit` from src/unnamed/part_001 lines 92-110 (parent
bubbling omitted). -/
def emitP (ev : String) (args : List String) (ls : List Listener) :
    List Listener × List Invocation :=
  if 0 < ls.length then
    let r := emitLoopP ev args 0 ls [] []
    (r.2.1.foldl spliceRemoveRecord r.1, r.2.2)
  else (ls, [])

/-- A sequence of emissions on the dist/tests.js emitter, accumulating
all invocations. -/
def emitSeqD : List (String × List String) → List Listener →
    List Listener × List Invocation
  | [], ls => (ls, [])
  | (ev, args) :: rest, ls =>
    let r1 := emitD ev args ls
    let r2 := emitSeqD rest r1.1
    (r2.1, r1.2 ++ r2.2)

/-- The C7 counterexample listener: a `once` listener for event "a". -/
def c7CexListener : Listener := ⟨0, "a", 7, true, .noAct⟩

/-- The C8 counterexample listener array: three listeners for event "e";
the first one's handler removes the first listener itself
(`removeEventListener("e", its own handler)`). -/
def c8CexListeners : List Listener :=
  [⟨0, "e", 10, false, .removeL "e" 10⟩,
   ⟨1, "e", 20, false, .noAct⟩,
   ⟨2, "e", 30, false, .noAct⟩]

/-- Concrete listeners for the C8 witness: one matching, one not. -/
def c8WitListeners : List Listener :=
  [⟨5, "e", 1, false, .noAct⟩, ⟨6, "x", 2, false, .noAct⟩]

/-- Modelled from the spec: the state of the bounded-concurrency job
Queue.  The file src/lib/queue.mjs is imported by TestRunnerCore but is
missing from the sources; spec 4.3 describes it: an ordered FIFO list
of pending job thunks, an integer concurrency ceiling, and a count of
in-flight jobs.  Jobs are modelled by their index; `started` logs every
thunk invocation in admission order; `done` collects settled jobs. -/
structure QState where
  pending : List Nat
  inFlight : List Nat
  done : List Nat
  started : List Nat
  limit : Nat
deriving DecidableEq, Repr

/-- Modelled from the spec (4.3): the greedy admission loop — "while
in-flight < N and pending jobs remain, pop the next pending job (FIFO)
and start it, incrementing in-flight".  Returns (pending, inFlight,
started). -/
def fillGo : List Nat → List Nat → Nat → List Nat →
    List Nat × List Nat × List Nat
  | [], fl, _, stl => ([], fl, stl)
  | j :: rest, fl, lim, stl =>
    if fl.length < lim then fillGo rest (fl ++ [j]) lim (stl ++ [j])
    else (j :: rest, fl, stl)

/-- Run the admission loop on a queue state. -/
def fillQ (q : QState) : QState :=
  let r := fillGo q.pending q.inFlight q.limit q.started
  { q with pending := r.1, inFlight := r.2.1, started := r.2.2 }

/-- Modelled from the spec (4.3): settlement of job `j` (success or
failure alike) — "decrement in-flight and immediately attempt to start
more jobs from the pending list until the ceiling or exhaustion is
reached again".  Settling a job that is not in flight does nothing. -/
def settleQ (q : QState) (j : Nat) : QState :=
  if j ∈ q.inFlight then
    fillQ { q with inFlight := q.inFlight.erase j, done := q.done ++ [j] }
  else q

/-- A fresh queue over `M` jobs with ceiling `N`. -/
def initQ (M N : Nat) : QState := ⟨List.range M, [], [], [], N⟩

/-- Every state `process()` can pass through: the initial greedy
admission followed by an arbitrary settlement schedule. -/
def runQ (M N : Nat) (settles : List Nat) : QState :=
  settles.foldl settleQ (fillQ (initQ M N))

/-- The queue invariant: jobs are never duplicated across the three
lists, all jobs are among the `M` supplied ones, in-flight never
exceeds the ceiling, and the start log holds exactly the jobs admitted
so far, each once. -/
def QInv (M : Nat) (q : QState) : Prop :=
  (q.pending ++ q.inFlight ++ q.done).Nodup ∧
  (∀ j ∈ q.pending ++ q.inFlight ++ q.done, j < M) ∧
  q.inFlight.length ≤ q.limit ∧
  q.started.Nodup ∧
  (∀ j, j ∈ q.started ↔ (j ∈ q.inFlight ∨ j ∈ q.done))

/-- The behaviour of a test work function (`testFn`): it throws
synchronously, returns a plain (non-thenable) value, or returns a
future that settles at an absolute time. -/
inductive WorkBehavior where
  | syncThrow (e : Err)
  | syncValue (v : String)
  | asyncResolve (t : Nat) (v : String)
  | asyncReject (t : Nat) (e : Err)
deriving DecidableEq, Repr

/-- A `Test` (src/unnamed/part_001 lines 24-31): a name, the work
function, `options.timeout` (default 10000) and the mutable outcome
`state`, initially "pending". -/
structure Test where
  name : String
  testFn : WorkBehavior
  timeout : Nat := 10000
  state : String := "pending"
deriving DecidableEq, Repr

/-- A settled future: the absolute time at which it settled and its
outcome.  Synchronous settlement is time 0. -/
inductive Settled where
  | fulfilled (t : Nat) (v : String)
  | rejected (t : Nat) (e : Err)
deriving DecidableEq, Repr

/-- The error `raceTimeout` rejects with: message
`Timeout expired [ms]` (src/unnamed/part_001 line 10). -/
def timeoutErr (ms : Nat) : Err :=
  ⟨"Error", "Timeout expired [" ++ toString ms ++ "]"⟩

/-- `raceTimeout` (src/unnamed/part_001 lines 7-15): a promise that
rejects after `ms` milliseconds with the timeout error. -/
def raceTimeout (ms : Nat) : Settled := .rejected ms (timeoutErr ms)

/-- When a settled future settled. -/
def Settled.time : Settled → Nat
  | .fulfilled t _ => t
  | .rejected t _ => t

/-- `Promise.race` of the work promise against the timeout promise.
The race settles with whichever side settles first; the work promise's
timers are registered before `raceTimeout`'s (the executor runs while
the race array is built, left to right; Node fires equal-delay timers
in registration order), so on a tie the work side wins. -/
def promiseRace (a b : Settled) : Settled :=
  if a.time ≤ b.time then a else b

/-- `Test.run` (src/unnamed/part_001 lines 37-57).  The executor calls
`testFn` synchronously: a synchronous throw sets `state` to "failed"
and rejects immediately; in every other case `state` is assigned
"passed" right away — BEFORE any returned future settles (line 44 runs
before the thenable check) — and the promise follows the work.  The
result is raced against `raceTimeout(timeout)`.  Returns the race
outcome together with the test's `state` field after the call. -/
def Test.run (test : Test) : Settled × String :=
  match test.testFn with
  | .syncThrow e =>
    (promiseRace (.rejected 0 e) (raceTimeout test.timeout), "failed")
  | .syncValue v =>
    (promiseRace (.fulfilled 0 v) (raceTimeout test.timeout), "passed")
  | .asyncResolve t v =>
    (promiseRace (.fulfilled t v) (raceTimeout test.timeout), "passed")
  | .asyncReject t e =>
    (promiseRace (.rejected t e) (raceTimeout test.timeout), "passed")

/-- The outcome a test-tree node's own run produces: a passing test, a
failing test (the work threw, its future rejected, or it timed out — at
the TOM interface these all surface as a rejected `run()`), a skipped
test, or a container node with no work function. -/
inductive NodeAction where
  | passA (v : String)
  | failA (e : Err)
  | skipA
  | noFnA
deriving DecidableEq, Repr

/-- Modelled from the spec: an external test-object-model node — the
package `test-object-model` is a collaborator outside this repository
(spec 3 and 6: ordered children, a `run()` producing pass/fail/skip
signals, a per-node concurrency ceiling). -/
inductive Tom where
  | mk (action : NodeAction) (maxConcurrency : Nat) (children : List Tom)

/-- The node's own outcome. -/
def Tom.action : Tom → NodeAction
  | .mk a _ _ => a

/-- The node's concurrency ceiling. -/
def Tom.maxConcurrency : Tom → Nat
  | .mk _ n _ => n

/-- The node's ordered children. -/
def Tom.children : Tom → List Tom
  | .mk _ _ cs => cs

/-- A lifecycle event a TOM node emits during its run (spec 6:
start/pass/fail/skipped/ignored; payloads — the test object and the
result or error — are not modelled). -/
inductive TomEv where
  | tStart
  | tPass (v : String)
  | tFail (e : Err)
  | tSkipped
  | tIgnored
deriving DecidableEq, Repr

/-- Modelled from the spec: a node's own `run()` (spec 3: "a `run()`
operation producing pass/fail/skip signals"; spec 6: the node emits its
lifecycle events; a failing test's `run()` future rejects — the
orchestrator attaches `.catch` to it at part_001 lines 562 and 590). -/
def nodeRun (t : Tom) : List TomEv × Except Err Unit :=
  match t.action with
  | .passA v => ([.tStart, .tPass v], .ok ())
  | .failA e => ([.tStart, .tFail e], .error e)
  | .skipA => ([.tSkipped], .ok ())
  | .noFnA => ([], .ok ())

/-- Modelled from the spec: runner Stats (src/lib/stats.mjs is imported
by TestRunnerCore but missing from the sources; spec 3: monotonically
increasing counters pass/fail/skip/ignore/total and timestamps
start/end, zero-initialised).  `Date.now()` is modelled as 0. -/
structure Stats where
  pass : Nat := 0
  fail : Nat := 0
  skip : Nat := 0
  ignore : Nat := 0
  total : Nat := 0
  start : Nat := 0
  end_ : Nat := 0
deriving DecidableEq, Repr

/-- A runner-level observable event, in emission order: the state
machine's events, the public `start` and `end` events, and the
republished test lifecycle events (payloads not modelled). -/
inductive REvent where
  | smEv (ev : SMEv (Option Nat))
  | startEv (count : Nat)
  | endEv (stats : Stats)
  | testStartEv
  | testPassEv
  | testFailEv
  | testSkipEv
  | testIgnoreEv
deriving DecidableEq, Repr

/-- The orchestrator's observable state: current machine state, stats,
the runner-level event log, and the ended flag (part_001 lines
444-493). -/
structure RunnerState where
  smState : String
  stats : Stats
  events : List REvent
  ended : Bool
deriving DecidableEq, Repr

/-- A freshly constructed runner: initial state "pending" (part_001
line 450), fresh stats, nothing emitted, not ended. -/
def initRunner : RunnerState := ⟨"pending", {}, [], false⟩

/-- `setState` on the runner with its declared moves, recording the
emitted events in the log; a thrown `INVALID_MOVE` propagates. -/
def applySM (st : RunnerState) (target : String) (args : Option Nat) :
    Except Err RunnerState :=
  match setStateCore st.smState runnerMoves target args with
  | (.ok evs, post) =>
    .ok { st with smState := post, events := st.events ++ evs.map REvent.smEv }
  | (.error e, _) => .error e

/-- `this.state = 'fail'` inside a queued job's catch handler (part_001
line 567): were `setState` to throw there, the job's promise would
reject and the Queue swallows job failures (spec 4.3), so the runner
object keeps the state `setState` left behind (unchanged on its error
paths) and traversal continues. -/
def applySMSwallow (st : RunnerState) (target : String) (args : Option Nat) :
    RunnerState :=
  match setStateCore st.smState runnerMoves target args with
  | (.ok evs, post) =>
    { st with smState := post, events := st.events ++ evs.map REvent.smEv }
  | (.error _, post) => { st with smState := post }

/-- The constructor's `tom.on(...)` handlers (part_001 lines 503-553):
each TOM lifecycle event synchronously increments the matching Stats
counter and republishes a runner-level event. -/
def handleTomEv (st : RunnerState) (e : TomEv) : RunnerState :=
  match e with
  | .tStart => { st with events := st.events ++ [.testStartEv] }
  | .tPass _ =>
    { st with
      stats.pass := st.stats.pass + 1
      events := st.events ++ [.testPassEv] }
  | .tFail _ =>
    { st with
      stats.fail := st.stats.fail + 1
      events := st.events ++ [.testFailEv] }
  | .tSkipped =>
    { st with
      stats.skip := st.stats.skip + 1
      events := st.events ++ [.testSkipEv] }
  | .tIgnored =>
    { st with
      stats.ignore := st.stats.ignore + 1
      events := st.events ++ [.testIgnoreEv] }

/-- `TestRunnerCore.run` (part_001 lines 589-599): run the given node,
catching a rejection by `this.state = 'fail'`; an exception from that
assignment rejects the surrounding `start()`. -/
def rootRunCatch (st : RunnerState) (t : Tom) : Except Err RunnerState :=
  let r := nodeRun t
  let st1 := r.1.foldl handleTomEv st
  match r.2 with
  | .ok _ => .ok st1
  | .error _ => applySM st1 "fail" none

/-- One queued job's run of a child (part_001 lines 560-574):
`test.run().catch(err => { this.state = 'fail' })` with the catch
handler's own exception swallowed at the queue boundary. -/
def childRunCatch (st : RunnerState) (t : Tom) : RunnerState :=
  let r := nodeRun t
  let st1 := r.1.foldl handleTomEv st
  match r.2 with
  | .ok _ => st1
  | .error _ => applySMSwallow st1 "fail" none

/-- `runTomNode` (part_001 lines 556-587): one job per child; each job
runs the child and recursively schedules the child's own children, the
jobs going through a Queue bounded by the node's ceiling.  The model
threads the effects in FIFO admission order — one legal schedule of the
cooperative single-threaded interleaving; the properties proved about
the final state are schedule-invariant because every node contributes
its events and at most one pending→fail transition exactly once. -/
def runChildren : List Tom → RunnerState → RunnerState
  | [], st => st
  | Tom.mk a n gs :: cs, st =>
    runChildren cs (runChildren gs (childRunCatch st (Tom.mk a n gs)))

/-- Traverse a node's subtree below the node itself. -/
def runTomNode (t : Tom) (st : RunnerState) : RunnerState :=
  runChildren t.children st

/-- Does a node action carry a work function?  Skipped tests still hold
their `testFn`; container nodes do not. -/
def hasTestFn : NodeAction → Bool
  | .passA _ => true
  | .failA _ => true
  | .skipA => true
  | .noFnA => false

/-- `Array.from(this.tom).filter(t => t.testFn).length` over a node's
descendant list (part_001 line 611): the TOM iterator yields the node
itself and every descendant. -/
def countTestsList : List Tom → Nat
  | [] => 0
  | Tom.mk a _ gs :: cs =>
    (if hasTestFn a then 1 else 0) + countTestsList gs + countTestsList cs

/-- The executable-work count for a whole tree. -/
def countTests (t : Tom) : Nat :=
  (if hasTestFn t.action then 1 else 0) + countTestsList t.children

/-- Is the action a failing run? -/
def isFailAction : NodeAction → Bool
  | .failA _ => true
  | _ => false

/-- Does any node of the list's subtrees fail? -/
def hasFailureList : List Tom → Bool
  | [] => false
  | Tom.mk a _ gs :: cs =>
    isFailAction a || hasFailureList gs || hasFailureList cs

/-- Does any node of the tree fail its run? -/
def hasFailure (t : Tom) : Bool :=
  isFailAction t.action || hasFailureList t.children

/-- The tail of `start()` after the traversal settles (part_001 lines
629-642): set `ended`, transition to 'pass' unless a failure already
forced 'fail' (a throw from that transition rejects `start()`), stamp
`stats.end` (`Date.now()` = 0) and emit the public `end` event carrying
the stats snapshot. -/
def startFinish (st5 : RunnerState) : Except Err RunnerState :=
  let st6 := { st5 with ended := true }
  match (if st6.smState != "fail" then applySM st6 "pass" none
         else .ok st6) with
  | .error e => .error e
  | .ok st7 =>
    let st8 := { st7 with stats.end_ := 0 }
    .ok { st8 with events := st8.events ++ [.endEv st8.stats] }

/-- `start()` after the public `start` event: run the root with its
catch (part_001 line 627), traverse the tree (line 628), then finish. -/
def startAfterSM (tom : Tom) (st3 : RunnerState) : Except Err RunnerState :=
  match rootRunCatch st3 tom with
  | .error e => .error e
  | .ok st4 => startFinish (runTomNode tom st4)

/-- `start()` from the point where `stats.total` is already populated:
`setState('in-progress', count)` — whose `INVALID_MOVE` rejects
`start()` — then the public `start` event, then the rest. -/
def startSM (tom : Tom) (st1 : RunnerState) : Except Err RunnerState :=
  let count := countTests tom
  match applySM st1 "in-progress" (some count) with
  | .error e => .error e
  | .ok st2 =>
    startAfterSM tom { st2 with events := st2.events ++ [.startEv count] }

/-- `TestRunnerCore.start` (part_001 lines 604-643), from an arbitrary
runner state (no view attached, `Date.now()` = 0): record the start
timestamp, count the executable descendants into `stats.total`, and run
the staged remainder. -/
def startFrom (tom : Tom) (st0 : RunnerState) : Except Err RunnerState :=
  startSM tom
    { st0 with
      stats.total := countTests tom
      stats.start := 0 }

/-- A whole run on a freshly constructed runner. -/
def start (tom : Tom) : Except Err RunnerState := startFrom tom initRunner

/-- The empty tree of C9: no children, no executable work. -/
def emptyTom : Tom := Tom.mk .noFnA 10 []

section StateMachineTheorems

/-- The `forEach` in `setState` leaves its accumulator untouched while no
move matches the tracked current state. -/
theorem setState_fold_no_match {α : Type} (state : String) (args : α)
    (prevState : String) (moves : List Move) (cur : String) (evs : List (SMEv α))
    (h : ∀ m ∈ moves, ¬(m.from_.contains cur = true ∧ m.to_.contains state = true)) :
    moves.foldl
      (fun (acc : String × Bool × List (SMEv α)) m =>
        if m.from_.contains acc.1 && m.to_.contains state then
          (state, true, acc.2.2 ++ [.stateChange state prevState, .named state args])
        else acc)
      (cur, false, evs) = (cur, false, evs) := by
  induction moves with
  | nil => rfl
  | cons m ms ih =>
    have hm := h m (by simp)
    have hcond : (m.from_.contains cur && m.to_.contains state) = false := by
      cases hf : m.from_.contains cur <;> cases ht : m.to_.contains state <;>
        simp_all
    simp only [List.foldl_cons, hcond, if_neg]
    exact ih (fun x hx => h x (by simp [hx]))

/-- Once the `forEach` has committed the new state, further iterations
change nothing provided no declared move lists the new state among both
its sources and destinations. -/
theorem setState_fold_stable {α : Type} (state : String) (args : α)
    (prevState : String) (moves : List Move) (evs : List (SMEv α))
    (h : ∀ m ∈ moves, ¬(m.from_.contains state = true ∧ m.to_.contains state = true)) :
    moves.foldl
      (fun (acc : String × Bool × List (SMEv α)) m =>
        if m.from_.contains acc.1 && m.to_.contains state then
          (state, true, acc.2.2 ++ [.stateChange state prevState, .named state args])
        else acc)
      (state, true, evs) = (state, true, evs) := by
  induction moves with
  | nil => rfl
  | cons m ms ih =>
    have hm := h m (by simp)
    have hcond : (m.from_.contains state && m.to_.contains state) = false := by
      cases hf : m.from_.contains state <;> cases ht : m.to_.contains state <;>
        simp_all
    simp only [List.foldl_cons, hcond, if_neg]
    exact ih (fun x hx => h x (by simp [hx]))

end StateMachineTheorems

/-- The `forEach` commits exactly once for the first permitting move when
no declared move lists the new state among both its sources and
destinations. -/
theorem setState_fold_first_match {α : Type} (state : String) (args : α)
    (prevState : String) (moves : List Move) (cur : String)
    (hnl : ∀ m ∈ moves, ¬(m.from_.contains state = true ∧ m.to_.contains state = true))
    (hperm : moves.any (fun m => m.from_.contains cur && m.to_.contains state) = true) :
    moves.foldl
      (fun (acc : String × Bool × List (SMEv α)) m =>
        if m.from_.contains acc.1 && m.to_.contains state then
          (state, true, acc.2.2 ++ [.stateChange state prevState, .named state args])
        else acc)
      (cur, false, []) =
      (state, true, [.stateChange state prevState, .named state args]) := by
  induction moves with
  | nil => simp at hperm
  | cons m ms ih =>
    by_cases hm : (m.from_.contains cur && m.to_.contains state) = true
    · simp only [List.foldl_cons, hm, if_pos, List.nil_append]
      exact setState_fold_stable state args prevState ms _
        (fun x hx => hnl x (by simp [hx]))
    · have hm' : (m.from_.contains cur && m.to_.contains state) = false := by
        revert hm; cases (m.from_.contains cur && m.to_.contains state) <;> simp
      simp only [List.foldl_cons, hm', if_neg]
      have hperm' : ms.any (fun m => m.from_.contains cur && m.to_.contains state) = true := by
        simp only [List.any_cons, hm', Bool.false_or] at hperm
        exact hperm
      exact ih (fun x hx => hnl x (by simp [hx])) hperm'

/-- Claim C3: for every StateMachine and every `setState(newState, ...)`
with `newState` different from the current state, if no declared move has
`newState` among its destinations, or no declared move permits
(currentState -> newState), the call fails with an `INVALID_MOVE` error
(in the latter case the message carries the legal source states for that
destination) and the machine state is unchanged after the failed call. -/
theorem c3_setState_invalid_transition {α : Type} (cur : String) (moves : List Move)
    (s : String) (args : α)
    (hne : s ≠ cur)
    (hbad : (∀ m ∈ moves, m.to_.contains s = false) ∨
            (∀ m ∈ moves, ¬(m.from_.contains cur = true ∧ m.to_.contains s = true))) :
    ∃ e, (setStateCore cur moves s args).1 = .error e ∧ e.name = "INVALID_MOVE" ∧
      (setStateCore cur moves s args).2 = cur ∧
      (moves.any (fun m => m.to_.contains s) = true → e.msg = canOnlyMsg moves s cur) := by
  have hcs : (cur == s) = false := by
    cases hx : cur == s
    · rfl
    · exact absurd (beq_iff_eq.mp hx).symm hne
  by_cases hvt : moves.any (fun m => m.to_.contains s) = true
  · -- destination declared; hbad must be the no-permitting-move case
    have hnp : ∀ m ∈ moves, ¬(m.from_.contains cur = true ∧ m.to_.contains s = true) := by
      rcases hbad with hb | hb
      · obtain ⟨m, hm, hmt⟩ := List.any_eq_true.mp hvt
        rw [hb m hm] at hmt; exact absurd hmt (by simp)
      · exact hb
    refine ⟨⟨"INVALID_MOVE", canOnlyMsg moves s cur⟩, ?_, rfl, ?_, fun _ => rfl⟩
    · simp only [setStateCore, hcs, Bool.false_eq_true, if_neg, hvt, Bool.not_true,
        Bool.false_eq_true, setState_fold_no_match s args cur moves cur [] hnp]
      rfl
    · simp only [setStateCore, hcs, Bool.false_eq_true, if_neg, hvt, Bool.not_true,
        Bool.false_eq_true, setState_fold_no_match s args cur moves cur [] hnp]
      rfl
  · have hvt' : moves.any (fun m => m.to_.contains s) = false := by
      revert hvt; cases moves.any (fun m => m.to_.contains s) <;> simp
    have hforall : ∀ x ∈ moves, s ∉ x.to_ := by
      intro x hx
      have hx2 := List.any_eq_false.mp hvt' x hx
      simpa using hx2
    have hmain : setStateCore cur moves s args =
        (.error ⟨"INVALID_MOVE", "Invalid state: " ++ s⟩, cur) := by
      simp [setStateCore, hcs]
      intro x hx hmem
      exact absurd hmem (hforall x hx)
    exact ⟨⟨"INVALID_MOVE", "Invalid state: " ++ s⟩, by rw [hmain], rfl,
      by rw [hmain], fun h => absurd h hvt⟩

/-- Claim C4 (amended): `setState` to the current state is a no-op; a
successful `setState` to a different state commits the new state and
emits exactly one generic state event followed by exactly one event
named after the new state, provided no declared move lists the new
state among both its sources and destinations.  (Without that proviso
the `forEach` re-fires: see the counterexample.) -/
theorem c4_setState_single_commit_amended {α : Type} (cur : String) (moves : List Move) (s : String) (args : α) :
    setStateCore cur moves cur args = (.ok [], cur) ∧
    (s ≠ cur →
     (∀ m ∈ moves, ¬(m.from_.contains s = true ∧ m.to_.contains s = true)) →
     moves.any (fun m => m.from_.contains cur && m.to_.contains s) = true →
     setStateCore cur moves s args =
       (.ok [.stateChange s cur, .named s args], s)) := by
  constructor
  · simp [setStateCore]
  · intro hne hnl hperm
    have hcs : (cur == s) = false := by
      cases hx : cur == s
      · rfl
      · exact absurd (beq_iff_eq.mp hx).symm hne
    have hvt : moves.any (fun m => m.to_.contains s) = true := by
      obtain ⟨m, hm, hmb⟩ := List.any_eq_true.mp hperm
      have hmb2 : m.to_.contains s = true := by
        simp only [Bool.and_eq_true] at hmb
        exact hmb.2
      exact List.any_eq_true.mpr ⟨m, hm, hmb2⟩
    have hfold := setState_fold_first_match s args cur moves cur hnl hperm
    have hex : ∃ x ∈ moves, s ∈ x.to_ := by
      obtain ⟨m, hm, hmb⟩ := List.any_eq_true.mp hvt
      exact ⟨m, hm, by simpa using hmb⟩
    simp only [setStateCore]
    rw [if_neg (by simp [hcs]), if_neg (by simpa using hex), hfold]
    simp

/-- Claim C4 counterexample: with moves a->b and \x7ba,b\x7d->b, both of
which permit a -> b, the successful call `setState("b")` from state "a"
emits TWO (state, named) event pairs, contradicting the claim that a
successful call never produces more than one commit or event pair even
when several declared moves permit the transition. -/
theorem c4_counterexample_double_emit :
    setStateCore "a" cexMoves "b" ([] : List String) =
      (.ok [.stateChange "b" "a", .named "b" [], .stateChange "b" "a", .named "b" []],
       "b") := by rfl

/-- Witness for C3: a concrete undeclared destination fails with
`INVALID_MOVE` and leaves the state unchanged. -/
theorem c3_setState_invalid_transition_witness :
    ∃ e, (setStateCore "pending" runnerMoves "bogus" ([] : List String)).1 = .error e ∧
      e.name = "INVALID_MOVE" ∧
      (setStateCore "pending" runnerMoves "bogus" ([] : List String)).2 = "pending" ∧
      (runnerMoves.any (fun m => m.to_.contains "bogus") = true →
        e.msg = canOnlyMsg runnerMoves "bogus" "pending") :=
  c3_setState_invalid_transition "pending" runnerMoves "bogus" [] (by decide) (Or.inl (by decide))

/-- Witness for C4 (amended) at concrete inputs. -/
theorem c4_setState_single_commit_amended_witness :
    setStateCore "x" [⟨["x"], ["y"]⟩] "x" ([] : List String) = (.ok [], "x") ∧
    setStateCore "x" [⟨["x"], ["y"]⟩] "y" ([] : List String) =
      (.ok [.stateChange "y" "x", .named "y" []], "y") :=
  ⟨(c4_setState_single_commit_amended "x" [⟨["x"], ["y"]⟩] "y" ([] : List String)).1,
   (c4_setState_single_commit_amended "x" [⟨["x"], ["y"]⟩] "y" ([] : List String)).2
     (by decide) (by decide) (by decide)⟩


/-- When no handler mutates the listener array, the dist emit loop
leaves the array untouched, queues exactly the matching `once`
listeners, and invokes exactly the matching listeners in registration
order. -/
theorem emitLoopD_noActs (ev : String) (args : List String) (ls : List Listener)
    (hA : ∀ l ∈ ls, l.action = HAction.noAct) (i : Nat) (tr : List Listener)
    (inv : List Invocation) :
    emitLoopD ev args i ls tr inv =
      (ls,
       tr ++ ((ls.drop i).filter (fun l => matchesEv l ev)).filter (fun l => l.once),
       inv ++ ((ls.drop i).filter (fun l => matchesEv l ev)).map (invOf ev args)) := by
  rw [emitLoopD]
  split
  · rename_i l hl
    obtain ⟨h, hgl⟩ := List.getElem?_eq_some_iff.mp hl
    have hdrop : ls.drop i = l :: ls.drop (i + 1) := by
      rw [List.drop_eq_getElem_cons h, hgl]
    have hact : l.action = HAction.noAct := by
      rw [← hgl]; exact hA _ (List.getElem_mem h)
    by_cases hm : matchesEv l ev
    · rw [if_pos hm, hact]
      have hrec := emitLoopD_noActs ev args ls hA (i + 1)
        (if l.once then tr ++ [l] else tr) (inv ++ [invOf ev args l])
      simp only [applyAction] at hrec ⊢
      rw [hrec, hdrop]
      by_cases ho : l.once
      · simp [hm, ho]
      · simp [hm, ho]
    · rw [if_neg hm]
      have hrec := emitLoopD_noActs ev args ls hA (i + 1) tr inv
      rw [hrec, hdrop]
      have hm2 : matchesEv l ev = false := by
        revert hm; cases matchesEv l ev <;> simp
      simp [hm2]
  · rename_i hl
    have h := List.getElem?_eq_none_iff.mp hl
    have hd : ls.drop i = [] := List.drop_eq_nil_of_le h
    simp [hd]
termination_by ls.length - i
decreasing_by
  all_goals omega

/-- When the queued record is still present, the splice phase is
`List.erase`. -/
theorem spliceRemoveRecord_eq_erase (cur : List Listener) (x : Listener)
    (hx : x ∈ cur) : spliceRemoveRecord cur x = cur.erase x := by
  induction cur with
  | nil => cases hx
  | cons a l ih =>
    by_cases hax : a = x
    · subst hax
      simp [spliceRemoveRecord, List.findIdx?_cons, List.erase_cons]
    · have hbeq : (a == x) = false := by
        cases hb : a == x
        · rfl
        · exact absurd (beq_iff_eq.mp hb) hax
      have hmem : x ∈ l := by
        cases List.mem_cons.mp hx with
        | inl h => exact absurd h.symm hax
        | inr h => exact h
      have ihl := ih hmem
      simp only [spliceRemoveRecord, List.findIdx?_cons, hbeq, cond_false] at ihl ⊢
      simp only [List.erase_cons, hbeq]
      rw [show (0 + 1) = 0 + 1 from rfl, List.findIdx?_succ]
      cases hf : l.findIdx? (fun y => y == x) 0 with
      | none =>
        rw [hf] at ihl
        simp only [Option.map_none'] at ihl ⊢
        simp only [if_neg (by simp : ¬(false = true))]
        -- goal: (a :: l).dropLast = a :: l.erase x ; since x ∈ l, l ≠ [] so dropLast (a::l) = a :: dropLast l
        cases l with
        | nil => cases hmem
        | cons b m =>
          simp only [List.dropLast_cons₂] at ihl ⊢
          rw [← ihl]
      | some j =>
        rw [hf] at ihl
        simp only [Option.map_some'] at ihl ⊢
        simp only [if_neg (by simp : ¬(false = true))]
        rw [List.eraseIdx_cons_succ, ihl]

/-- One splice step never adds elements. -/
theorem spliceRemoveRecord_sublist (cur : List Listener) (x : Listener) :
    List.Sublist (spliceRemoveRecord cur x) cur := by
  unfold spliceRemoveRecord
  cases hf : cur.findIdx? (fun y => y == x) with
  | none => exact List.dropLast_sublist cur
  | some j => exact List.eraseIdx_sublist cur j

/-- The whole removal phase never adds elements. -/
theorem foldl_splice_sublist (t : List Listener) :
    ∀ cur : List Listener, List.Sublist (t.foldl spliceRemoveRecord cur) cur := by
  induction t with
  | nil => intro cur; simp
  | cons x t ih =>
    intro cur
    simp only [List.foldl_cons]
    exact (ih (spliceRemoveRecord cur x)).trans (spliceRemoveRecord_sublist cur x)

/-- Membership after the removal phase: with distinct records all
present, exactly the queued records disappear. -/
theorem foldl_splice_mem (t : List Listener) :
    ∀ cur : List Listener, t.Nodup → (∀ x ∈ t, x ∈ cur) → cur.Nodup →
    ∀ y, y ∈ t.foldl spliceRemoveRecord cur ↔ (y ∈ cur ∧ y ∉ t) := by
  induction t with
  | nil => intro cur _ _ _ y; simp
  | cons x t ih =>
    intro cur hnt hsub hnc y
    have hx : x ∈ cur := hsub x (by simp)
    have hsp : spliceRemoveRecord cur x = cur.erase x :=
      spliceRemoveRecord_eq_erase cur x hx
    simp only [List.foldl_cons, hsp]
    have hnt' : t.Nodup := (List.nodup_cons.mp hnt).2
    have hxnt : x ∉ t := (List.nodup_cons.mp hnt).1
    have hsub' : ∀ z ∈ t, z ∈ cur.erase x := by
      intro z hz
      have hzx : z ≠ x := fun he => hxnt (he ▸ hz)
      exact (List.mem_erase_of_ne hzx).mpr (hsub z (by simp [hz]))
    have hnc' : (cur.erase x).Nodup := hnc.erase x
    rw [ih (cur.erase x) hnt' hsub' hnc' y]
    constructor
    · rintro ⟨hy1, hy2⟩
      have := (hnc.mem_erase_iff).mp hy1
      exact ⟨this.2, by simp [hy2]; exact fun he => absurd he this.1⟩
    · rintro ⟨hy1, hy2⟩
      simp only [List.mem_cons, not_or] at hy2
      exact ⟨(hnc.mem_erase_iff).mpr ⟨hy2.1, hy1⟩, hy2.2⟩

/-- Without handler mutation, `emit` invokes exactly the matching
listeners, in registration order, with the wildcard-prefixed
arguments. -/
theorem emitD_invocations (ev : String) (args : List String) (ls : List Listener)
    (hA : ∀ l ∈ ls, l.action = HAction.noAct) :
    (emitD ev args ls).2 =
      (ls.filter (fun l => matchesEv l ev)).map (invOf ev args) := by
  unfold emitD
  by_cases h0 : 0 < ls.length
  · rw [if_pos h0]
    simp only [emitLoopD_noActs ev args ls hA 0 [] [], List.drop_zero,
      List.nil_append]
  · rw [if_neg h0]
    have : ls = [] := by
      cases ls with
      | nil => rfl
      | cons a l => exact absurd (by simp) h0
    subst this
    simp

/-- Without handler mutation and with distinct registration ids, the
listeners surviving an `emit` are exactly those that did not match or
are not `once`. -/
theorem emitD_final_mem (ev : String) (args : List String) (ls : List Listener)
    (hA : ∀ l ∈ ls, l.action = HAction.noAct)
    (hN : (ls.map Listener.regId).Nodup) :
    ∀ y, y ∈ (emitD ev args ls).1 ↔
      (y ∈ ls ∧ ¬(matchesEv y ev = true ∧ y.once = true)) := by
  intro y
  have hnls : ls.Nodup := hN.of_map
  unfold emitD
  by_cases h0 : 0 < ls.length
  · rw [if_pos h0]
    simp only [emitLoopD_noActs ev args ls hA 0 [] [], List.drop_zero,
      List.nil_append]
    set t := (ls.filter (fun l => matchesEv l ev)).filter (fun l => l.once) with ht
    have hts : t.Nodup := (hnls.filter _).filter _
    have htm : ∀ x ∈ t, x ∈ ls := by
      intro x hx
      rw [ht] at hx
      exact List.mem_of_mem_filter (List.mem_of_mem_filter hx)
    rw [foldl_splice_mem t ls hts htm hnls y]
    have hyt : y ∈ t ↔ (y ∈ ls ∧ matchesEv y ev = true ∧ y.once = true) := by
      rw [ht]
      simp only [List.mem_filter, and_assoc]
    constructor
    · rintro ⟨hy1, hy2⟩
      refine ⟨hy1, fun hc => hy2 (hyt.mpr ⟨hy1, hc⟩)⟩
    · rintro ⟨hy1, hy2⟩
      exact ⟨hy1, fun hc => hy2 (hyt.mp hc).2⟩
  · rw [if_neg h0]
    have : ls = [] := by
      cases ls with
      | nil => rfl
      | cons a l => exact absurd (by simp) h0
    subst this
    simp

/-- Without handler mutation, an `emit` only removes listeners. -/
theorem emitD_final_sublist (ev : String) (args : List String) (ls : List Listener)
    (hA : ∀ l ∈ ls, l.action = HAction.noAct) :
    List.Sublist (emitD ev args ls).1 ls := by
  unfold emitD
  by_cases h0 : 0 < ls.length
  · rw [if_pos h0]
    simp only [emitLoopD_noActs ev args ls hA 0 [] [], List.drop_zero,
      List.nil_append]
    exact foldl_splice_sublist _ ls
  · rw [if_neg h0]

/-- Counting invocations by registration id equals counting the invoked
listeners by registration id. -/
theorem countP_inv_regId (ev : String) (args : List String) (R : Nat)
    (xs : List Listener) :
    ((xs.map (invOf ev args)).countP (fun iv => iv.regId == R)) =
      xs.countP (fun l => l.regId == R) := by
  rw [List.countP_map]
  rfl

/-- With distinct registration ids, at most one listener bears a given
id. -/
theorem countP_regId_le_one (ls : List Listener)
    (hN : (ls.map Listener.regId).Nodup) (R : Nat) :
    ls.countP (fun l => l.regId == R) ≤ 1 := by
  have h1 : (ls.map Listener.regId).countP (fun x => x == R) =
      ls.countP (fun l => l.regId == R) := by
    rw [List.countP_map]
    rfl
  rw [← h1]
  have h2 := List.nodup_iff_count_le_one.mp hN R
  rwa [List.count_eq_countP] at h2

/-- With distinct registration ids, the id determines the record. -/
theorem regId_inj_on (ls : List Listener) (hN : (ls.map Listener.regId).Nodup)
    (l1 l2 : Listener) (h1 : l1 ∈ ls) (h2 : l2 ∈ ls)
    (he : l1.regId = l2.regId) : l1 = l2 :=
  List.inj_on_of_nodup_map hN h1 h2 he

/-- A registration id absent from the listener array is never invoked by
any subsequent emission. -/
theorem emitSeqD_count_zero (evs : List (String × List String)) :
    ∀ (ls : List Listener) (R : Nat), (∀ l ∈ ls, l.action = HAction.noAct) →
    (ls.map Listener.regId).Nodup →
    (∀ l ∈ ls, l.regId ≠ R) →
    ((emitSeqD evs ls).2.countP (fun iv => iv.regId == R)) = 0 := by
  induction evs with
  | nil => intro ls R _ _ _; simp [emitSeqD]
  | cons e rest ih =>
    intro ls R hA hN hno
    obtain ⟨ev, args⟩ := e
    simp only [emitSeqD]
    rw [List.countP_append]
    have h1 : (emitD ev args ls).2.countP (fun iv => iv.regId == R) = 0 := by
      rw [emitD_invocations ev args ls hA, countP_inv_regId]
      apply List.countP_eq_zero.mpr
      intro l hl
      have hlm := List.mem_of_mem_filter hl
      simp [hno l hlm]
    have hsub := emitD_final_sublist ev args ls hA
    have h2 := ih (emitD ev args ls).1 R
      (fun l hl => hA l (hsub.mem hl))
      (List.Nodup.sublist (hsub.map Listener.regId) hN)
      (fun l hl => hno l (hsub.mem hl))
    omega

/-- Across any emission sequence, a `once` listener's id is invoked at
most once (dist emitter, no handler mutation, distinct ids). -/
theorem emitSeqD_once_count (evs : List (String × List String)) :
    ∀ (ls : List Listener) (r : Listener),
    (∀ l ∈ ls, l.action = HAction.noAct) →
    (ls.map Listener.regId).Nodup → r ∈ ls → r.once = true →
    ((emitSeqD evs ls).2.countP (fun iv => iv.regId == r.regId)) ≤ 1 := by
  induction evs with
  | nil => intro ls r _ _ _ _; simp [emitSeqD]
  | cons e rest ih =>
    intro ls r hA hN hr ho
    obtain ⟨ev, args⟩ := e
    simp only [emitSeqD]
    rw [List.countP_append]
    have hsub := emitD_final_sublist ev args ls hA
    have hA1 : ∀ l ∈ (emitD ev args ls).1, l.action = HAction.noAct :=
      fun l hl => hA l (hsub.mem hl)
    have hN1 := List.Nodup.sublist (hsub.map Listener.regId) hN
    by_cases hm : matchesEv r ev = true
    · have hc1 : (emitD ev args ls).2.countP (fun iv => iv.regId == r.regId) ≤ 1 := by
        rw [emitD_invocations ev args ls hA, countP_inv_regId]
        exact le_trans
          (List.Sublist.countP_le _ (List.filter_sublist ls))
          (countP_regId_le_one ls hN r.regId)
      have hrout : r ∉ (emitD ev args ls).1 := by
        rw [emitD_final_mem ev args ls hA hN r]
        rintro ⟨-, hcon⟩
        exact hcon ⟨hm, ho⟩
      have hno1 : ∀ l ∈ (emitD ev args ls).1, l.regId ≠ r.regId := by
        intro l hl he
        have hlls := hsub.mem hl
        have hlr : l = r := regId_inj_on ls hN l r hlls hr he
        exact hrout (hlr ▸ hl)
      have hc2 := emitSeqD_count_zero rest (emitD ev args ls).1 r.regId hA1 hN1 hno1
      omega
    · have hc1 : (emitD ev args ls).2.countP (fun iv => iv.regId == r.regId) = 0 := by
        rw [emitD_invocations ev args ls hA, countP_inv_regId]
        apply List.countP_eq_zero.mpr
        intro l hl
        have hlm := List.mem_of_mem_filter hl
        have hlmatch : matchesEv l ev = true := (List.mem_filter.mp hl).2
        intro hbeq
        have heq : l.regId = r.regId := by simpa using hbeq
        have hlr : l = r := regId_inj_on ls hN l r hlm hr heq
        subst hlr
        exact hm hlmatch
      have hrin : r ∈ (emitD ev args ls).1 := by
        rw [emitD_final_mem ev args ls hA hN r]
        exact ⟨hr, fun hc => hm hc.1⟩
      have hc2 := ih (emitD ev args ls).1 r hA1 hN1 hrin ho
      omega



/-- Unfolding step of the dist emit loop at a live index. -/
theorem emitLoopD_at (ev : String) (args : List String) (i : Nat)
    (ls : List Listener) (tr : List Listener) (inv : List Invocation)
    (l : Listener) (h : ls[i]? = some l) :
    emitLoopD ev args i ls tr inv =
      (if matchesEv l ev then
        emitLoopD ev args (i + 1) (applyAction l.action ls)
          (if l.once then tr ++ [l] else tr) (inv ++ [invOf ev args l])
      else emitLoopD ev args (i + 1) ls tr inv) := by
  rw [emitLoopD]
  split
  · rename_i l2 hl2
    rw [h] at hl2
    cases hl2
    rfl
  · rename_i hl2
    rw [h] at hl2
    cases hl2

/-- The dist emit loop stops past the end of the live array. -/
theorem emitLoopD_end (ev : String) (args : List String) (i : Nat)
    (ls : List Listener) (tr : List Listener) (inv : List Invocation)
    (h : ls[i]? = none) :
    emitLoopD ev args i ls tr inv = (ls, tr, inv) := by
  rw [emitLoopD]
  split
  · rename_i l2 hl2
    rw [h] at hl2
    cases hl2
  · rfl

/-- Unfolding step of the part_001 emit loop at a live index. -/
theorem emitLoopP_at (ev : String) (args : List String) (i : Nat)
    (ls : List Listener) (tr : List Listener) (inv : List Invocation)
    (l : Listener) (h : ls[i]? = some l) :
    emitLoopP ev args i ls tr inv =
      (if l.eventName == ev then
        emitLoopP ev args (i + 1) (applyAction l.action ls)
          (if l.once then tr ++ [l] else tr) (inv ++ [⟨l.regId, args⟩])
      else if l.eventName == "__ALL__" then
        emitLoopP ev args (i + 1) (applyAction l.action ls)
          (if l.once then tr ++ [l] else tr) (inv ++ [⟨l.regId, ev :: args⟩])
      else emitLoopP ev args (i + 1) ls (if l.once then tr ++ [l] else tr) inv) := by
  rw [emitLoopP]
  split
  · rename_i l2 hl2
    rw [h] at hl2
    cases hl2
    rfl
  · rename_i hl2
    rw [h] at hl2
    cases hl2

/-- The part_001 emit loop stops past the end of the live array. -/
theorem emitLoopP_end (ev : String) (args : List String) (i : Nat)
    (ls : List Listener) (tr : List Listener) (inv : List Invocation)
    (h : ls[i]? = none) :
    emitLoopP ev args i ls tr inv = (ls, tr, inv) := by
  rw [emitLoopP]
  split
  · rename_i l2 hl2
    rw [h] at hl2
    cases hl2
  · rfl

/-- Claim C7 (amended): for the dist/tests.js emitter, with handlers
that do not themselves mutate the listener list and with distinct
registration ids, a `once` listener is invoked at most once across any
sequence of emissions, and a single emission removes it exactly when
(and because) that emission invoked it — in particular an emission of a
non-matching event leaves it registered.  The part_001 emitter violates
the original claim (see the counterexample): its `once` check sits
outside the name-match test, so any emission removes every `once`
listener. -/
theorem c7_once_listener_amended (ls : List Listener) (r : Listener)
    (evs : List (String × List String)) (ev : String) (args : List String)
    (hA : ∀ l ∈ ls, l.action = HAction.noAct)
    (hN : (ls.map Listener.regId).Nodup)
    (hr : r ∈ ls) (ho : r.once = true) :
    ((emitSeqD evs ls).2.countP (fun iv => iv.regId == r.regId)) ≤ 1 ∧
    (r ∉ (emitD ev args ls).1 ↔ matchesEv r ev = true) := by
  constructor
  · exact emitSeqD_once_count evs ls r hA hN hr ho
  · rw [emitD_final_mem ev args ls hA hN r]
    constructor
    · intro hcon
      by_contra hm
      exact hcon ⟨hr, fun hc => hm hc.1⟩
    · intro hm
      rintro ⟨-, hcon⟩
      exact hcon ⟨hm, ho⟩

/-- Claim C7 counterexample: on the part_001 emitter, emitting "b" with
only a `once` listener for "a" registered invokes nothing yet removes
the listener — a different event removed a not-yet-invoked `once`
listener, contradicting the claim for that emitter. -/
theorem c7_counterexample_once_removed_without_invocation :
    (emitP "b" [] [c7CexListener]).2 = [] ∧
    (emitP "b" [] [c7CexListener]).1 = [] := by
  have h : emitP "b" [] [c7CexListener] = ([], []) := by
    simp [emitP, emitLoopP_at, emitLoopP_end, c7CexListener, spliceRemoveRecord]
  rw [h]
  exact ⟨rfl, rfl⟩

/-- Witness for C7 (amended) at concrete inputs: a `once` listener for
"a", emitted twice, runs at most once; emitting "b" does not remove
it. -/
theorem c7_once_listener_amended_witness :
    ((emitSeqD [("a", []), ("a", [])] [c7CexListener]).2.countP
      (fun iv => iv.regId == c7CexListener.regId)) ≤ 1 ∧
    (c7CexListener ∉ (emitD "b" [] [c7CexListener]).1 ↔
      matchesEv c7CexListener "b" = true) :=
  c7_once_listener_amended [c7CexListener] c7CexListener [("a", []), ("a", [])] "b" []
    (by decide) (by decide) (by decide) (by decide)

/-- Claim C8 (amended): when no handler mutates the listener list
during the emission, `emit` invokes exactly the matching listeners
registered before the emit, each exactly once, in registration order,
with the same positional arguments (event name prefixed for
wildcards).  When a handler does remove a listener mid-emission the
claim fails: the loop walks the LIVE array, so removal at or before
the current index skips the following listener (see the
counterexample). -/
theorem c8_no_mutation_exact_invocations (ev : String) (args : List String) (ls : List Listener)
    (hA : ∀ l ∈ ls, l.action = HAction.noAct) :
    (emitD ev args ls).2 =
      (ls.filter (fun l => matchesEv l ev)).map (invOf ev args) :=
  emitD_invocations ev args ls hA

/-- Claim C8 counterexample: three listeners for "e"; the first
handler removes the first listener itself.  The emission skips the
second listener (registration id 1) even though it matched and was
registered before the emit — mutating the list mid-emission changed
the invoked set, contradicting the claim. -/
theorem c8_counterexample_skipped_listener :
    emitD "e" [] c8CexListeners =
      ([⟨1, "e", 20, false, .noAct⟩, ⟨2, "e", 30, false, .noAct⟩],
       [⟨0, []⟩, ⟨2, []⟩]) ∧
    (emitD "e" [] c8CexListeners).2.countP (fun iv => iv.regId == 1) = 0 := by
  have h : emitD "e" [] c8CexListeners =
      ([⟨1, "e", 20, false, .noAct⟩, ⟨2, "e", 30, false, .noAct⟩],
       [⟨0, []⟩, ⟨2, []⟩]) := by
    simp [emitD, emitLoopD_at, emitLoopD_end, c8CexListeners, spliceRemoveRecord,
      applyAction, removeEventListener, matchesEv, invOf]
  refine ⟨h, ?_⟩
  rw [h]
  rfl

/-- Witness for C8 (amended) at concrete inputs. -/
theorem c8_no_mutation_exact_invocations_witness :
    (emitD "e" [] c8WitListeners).2 = [⟨5, []⟩] :=
  (c8_no_mutation_exact_invocations "e" [] c8WitListeners (by decide)).trans (by rfl)


/-- The greedy admission loop preserves the queue invariant components:
no duplication, job bounds, the ceiling, and the start log. -/
theorem fillGo_preserves (M : Nat) (p : List Nat) :
    ∀ (fl stl d : List Nat) (lim : Nat),
    (p ++ fl ++ d).Nodup → (∀ j ∈ p ++ fl ++ d, j < M) →
    fl.length ≤ lim → stl.Nodup →
    (∀ j, j ∈ stl ↔ (j ∈ fl ∨ j ∈ d)) →
    ((fillGo p fl lim stl).1 ++ (fillGo p fl lim stl).2.1 ++ d).Nodup ∧
    (∀ j ∈ (fillGo p fl lim stl).1 ++ (fillGo p fl lim stl).2.1 ++ d, j < M) ∧
    (fillGo p fl lim stl).2.1.length ≤ lim ∧
    (fillGo p fl lim stl).2.2.Nodup ∧
    (∀ j, j ∈ (fillGo p fl lim stl).2.2 ↔
      (j ∈ (fillGo p fl lim stl).2.1 ∨ j ∈ d)) := by
  induction p with
  | nil =>
    intro fl stl d lim hnd hb hfl hstl hiff
    simp only [List.nil_append] at hnd hb
    simp only [fillGo, List.nil_append]
    exact ⟨hnd, hb, hfl, hstl, hiff⟩
  | cons j rest ih =>
    intro fl stl d lim hnd hb hfl hstl hiff
    by_cases h : fl.length < lim
    · have e1 : rest ++ (fl ++ [j]) ++ d = (rest ++ fl) ++ (j :: d) := by simp
      have e2 : (j :: rest) ++ fl ++ d = j :: (rest ++ fl ++ d) := by simp
      have hperm : (rest ++ (fl ++ [j]) ++ d).Perm ((j :: rest) ++ fl ++ d) := by
        rw [e1, e2]
        have hmid : List.Perm ((rest ++ fl) ++ j :: d)
            (j :: ((rest ++ fl) ++ d)) := List.perm_middle
        simpa using hmid
      rw [e2] at hnd
      have hjn : j ∉ rest ++ fl ++ d := (List.nodup_cons.mp hnd).1
      have hjfl : j ∉ fl := fun hc => hjn (by simp [hc])
      have hjd : j ∉ d := fun hc => hjn (by simp [hc])
      have hjstl : j ∉ stl := fun hc => by
        rcases (hiff j).mp hc with hin | hin
        · exact hjfl hin
        · exact hjd hin
      have hnd2 : (rest ++ (fl ++ [j]) ++ d).Nodup := by
        refine hperm.nodup_iff.mpr ?_
        rw [e2]
        exact hnd
      have hb2 : ∀ x ∈ rest ++ (fl ++ [j]) ++ d, x < M := by
        intro x hx
        exact hb x (hperm.subset hx)
      have hfl2 : (fl ++ [j]).length ≤ lim := by
        simp only [List.length_append, List.length_cons, List.length_nil]
        omega
      have hstl2 : (stl ++ [j]).Nodup := by
        rw [List.nodup_append]
        exact ⟨hstl, List.nodup_singleton j,
          by intro a ha hb2m; simp at hb2m; subst hb2m; exact hjstl ha⟩
      have hiff2 : ∀ x, x ∈ stl ++ [j] ↔ (x ∈ fl ++ [j] ∨ x ∈ d) := by
        intro x
        simp only [List.mem_append, List.mem_singleton]
        constructor
        · rintro (hx | hx)
          · rcases (hiff x).mp hx with h1 | h1
            · exact Or.inl (Or.inl h1)
            · exact Or.inr h1
          · exact Or.inl (Or.inr hx)
        · rintro ((hx | hx) | hx)
          · exact Or.inl ((hiff x).mpr (Or.inl hx))
          · exact Or.inr hx
          · exact Or.inl ((hiff x).mpr (Or.inr hx))
      have hres : fillGo (j :: rest) fl lim stl =
          fillGo rest (fl ++ [j]) lim (stl ++ [j]) := by
        simp only [fillGo, if_pos h]
      rw [hres]
      exact ih (fl ++ [j]) (stl ++ [j]) d lim hnd2 hb2 hfl2 hstl2 hiff2
    · have hres : fillGo (j :: rest) fl lim stl = (j :: rest, fl, stl) := by
        simp only [fillGo, if_neg h]
      rw [hres]
      exact ⟨hnd, hb, hfl, hstl, hiff⟩

/-- `fillQ` preserves the queue invariant. -/
theorem fillQ_preserves (M : Nat) (q : QState) (h : QInv M q) : QInv M (fillQ q) := by
  obtain ⟨hnd, hb, hfl, hstl, hiff⟩ := h
  have := fillGo_preserves M q.pending q.inFlight q.started q.done q.limit
    hnd hb hfl hstl hiff
  exact ⟨this.1, this.2.1, this.2.2.1, this.2.2.2.1, this.2.2.2.2⟩

/-- Under the invariant the in-flight list has no duplicates. -/
theorem inFlight_nodup_of_inv (M : Nat) (q : QState) (h : QInv M q) :
    q.inFlight.Nodup := by
  obtain ⟨hnd, -, -, -, -⟩ := h
  have hsub : List.Sublist q.inFlight (q.pending ++ q.inFlight ++ q.done) := by
    have h1 : List.Sublist q.inFlight (q.inFlight ++ q.done) :=
      List.sublist_append_left _ _
    have h2 : List.Sublist (q.inFlight ++ q.done)
        (q.pending ++ (q.inFlight ++ q.done)) := List.sublist_append_right _ _
    have h3 := h1.trans h2
    rwa [← List.append_assoc] at h3
  exact List.Nodup.sublist hsub hnd

/-- Settling any job preserves the queue invariant. -/
theorem settleQ_preserves (M : Nat) (q : QState) (j : Nat) (h : QInv M q) :
    QInv M (settleQ q j) := by
  unfold settleQ
  by_cases hj : j ∈ q.inFlight
  · rw [if_pos hj]
    apply fillQ_preserves
    obtain ⟨hnd, hb, hfl, hstl, hiff⟩ := h
    have hflnd : q.inFlight.Nodup := inFlight_nodup_of_inv M q ⟨hnd, hb, hfl, hstl, hiff⟩
    have hpermfl : q.inFlight.Perm (j :: q.inFlight.erase j) :=
      List.perm_cons_erase hj
    -- permutation of the big list
    have hperm : (q.pending ++ q.inFlight ++ q.done).Perm
        (q.pending ++ q.inFlight.erase j ++ (q.done ++ [j])) := by
      have p1 : (q.pending ++ q.inFlight ++ q.done).Perm
          (q.pending ++ (j :: q.inFlight.erase j) ++ q.done) := by
        exact List.Perm.append (List.Perm.append (List.Perm.refl _) hpermfl)
          (List.Perm.refl _)
      refine p1.trans ?_
      have e1 : q.pending ++ (j :: q.inFlight.erase j) ++ q.done =
          q.pending ++ (j :: (q.inFlight.erase j ++ q.done)) := by simp
      have e2 : q.pending ++ q.inFlight.erase j ++ (q.done ++ [j]) =
          q.pending ++ ((q.inFlight.erase j ++ q.done) ++ [j]) := by simp
      rw [e1, e2]
      refine List.Perm.append (List.Perm.refl _) ?_
      have hmid : List.Perm ((q.inFlight.erase j ++ q.done) ++ j :: ([] : List Nat))
          (j :: ((q.inFlight.erase j ++ q.done) ++ ([] : List Nat))) :=
        List.perm_middle
      simpa using hmid.symm
    refine ⟨hperm.nodup_iff.mp hnd, ?_, ?_, hstl, ?_⟩
    · intro x hx
      exact hb x (hperm.symm.subset hx)
    · calc (q.inFlight.erase j).length ≤ q.inFlight.length :=
        (List.erase_sublist j q.inFlight).length_le
      _ ≤ q.limit := hfl
    · intro x
      rw [hiff x]
      have hmem : x ∈ q.inFlight ↔ (x = j ∨ x ∈ q.inFlight.erase j) := by
        rw [hpermfl.mem_iff]
        simp
      simp only [List.mem_append, List.mem_singleton]
      constructor
      · rintro (hx | hx)
        · rcases hmem.mp hx with h1 | h1
          · exact Or.inr (Or.inr h1)
          · exact Or.inl h1
        · exact Or.inr (Or.inl hx)
      · rintro (hx | hx | hx)
        · exact Or.inl (hmem.mpr (Or.inr hx))
        · exact Or.inr hx
        · exact Or.inl (hmem.mpr (Or.inl hx))
  · rw [if_neg hj]
    exact h

/-- Every state reachable during `process()` satisfies the queue
invariant. -/
theorem runQ_inv (M N : Nat) (settles : List Nat) : QInv M (runQ M N settles) := by
  have hinit : QInv M (fillQ (initQ M N)) := by
    apply fillQ_preserves
    refine ⟨?_, ?_, ?_, ?_, ?_⟩
    · simp [initQ, List.nodup_range]
    · intro j hj
      simp only [initQ, List.append_nil] at hj
      simpa using hj
    · simp [initQ]
    · simp [initQ]
    · intro j
      simp [initQ]
  have hfold : ∀ (ss : List Nat) (q : QState), QInv M q →
      QInv M (ss.foldl settleQ q) := by
    intro ss
    induction ss with
    | nil => intro q h; exact h
    | cons s rest ih =>
      intro q h
      exact ih (settleQ q s) (settleQ_preserves M q s h)
  exact hfold settles _ hinit

/-- Settlements never change the configured ceiling. -/
theorem foldl_settleQ_limit (ss : List Nat) :
    ∀ q : QState, (ss.foldl settleQ q).limit = q.limit := by
  induction ss with
  | nil => intro q; rfl
  | cons s rest ih =>
    intro q
    rw [List.foldl_cons, ih]
    unfold settleQ fillQ
    split <;> rfl

/-- The reachable states keep the configured ceiling `N`. -/
theorem runQ_limit (M N : Nat) (settles : List Nat) :
    (runQ M N settles).limit = N := by
  unfold runQ
  rw [foldl_settleQ_limit]
  rfl

/-- A duplicate-free list of naturals below `M` has at most `M`
elements. -/
theorem length_le_of_nodup_lt (l : List Nat) (M : Nat) (hnd : l.Nodup)
    (hb : ∀ j ∈ l, j < M) : l.length ≤ M := by
  have h1 : l.toFinset.card = l.length := List.toFinset_card_of_nodup hnd
  have h2 : l.toFinset ⊆ Finset.range M := by
    intro x hx
    rw [Finset.mem_range]
    exact hb x (List.mem_toFinset.mp hx)
  have h3 := Finset.card_le_card h2
  rw [Finset.card_range] at h3
  omega

/-- Claim C2: for every Queue with concurrency ceiling N >= 1 over M
pending job thunks, at every instant during `process()` (after the
initial greedy admission and any settlement schedule) the number of
jobs started but not yet settled is at most min(N, M), and each job
thunk is invoked at most once (the start log counts every thunk
invocation). -/
theorem c2_queue_concurrency_bound (M N : Nat) (hN : 1 ≤ N) (settles : List Nat) :
    (runQ M N settles).inFlight.length ≤ min N M ∧
    (∀ j, (runQ M N settles).started.count j ≤ 1) := by
  have hinv := runQ_inv M N settles
  obtain ⟨hnd, hb, hfl, hstl, hiff⟩ := hinv
  constructor
  · apply le_min
    · rw [runQ_limit M N settles] at hfl
      exact hfl
    · have hflnd := inFlight_nodup_of_inv M _ ⟨hnd, hb, hfl, hstl, hiff⟩
      have hbfl : ∀ j ∈ (runQ M N settles).inFlight, j < M := by
        intro j hj
        exact hb j (by simp [hj])
      exact length_le_of_nodup_lt _ M hflnd hbfl
  · intro j
    exact List.nodup_iff_count_le_one.mp hstl j

/-- Witness for C2 at a concrete queue: three jobs, ceiling two, one
settlement. -/
theorem c2_queue_concurrency_bound_witness :
    (runQ 3 2 [0]).inFlight.length ≤ min 2 3 ∧
    (runQ 3 2 [0]).started.count 1 ≤ 1 :=
  ⟨(c2_queue_concurrency_bound 3 2 (by decide) [0]).1, (c2_queue_concurrency_bound 3 2 (by decide) [0]).2 1⟩

/-- Claim C5: a Test with timeout T whose work resolves at t < T
fulfills with the resolved value; work settling only at t > T (resolve
or reject alike) makes `run()` reject with the Timeout error, whose
message encodes the configured duration T. -/
theorem c5_timeout_race (name v : String) (e : Err) (T t : Nat) :
    (t < T → (Test.run ⟨name, .asyncResolve t v, T, "pending"⟩).1 = .fulfilled t v) ∧
    (T < t → (Test.run ⟨name, .asyncResolve t v, T, "pending"⟩).1 =
      .rejected T (timeoutErr T)) ∧
    (T < t → (Test.run ⟨name, .asyncReject t e, T, "pending"⟩).1 =
      .rejected T (timeoutErr T)) ∧
    (timeoutErr T).msg = "Timeout expired [" ++ toString T ++ "]" := by
  refine ⟨?_, ?_, ?_, rfl⟩
  · intro h
    simp only [Test.run, promiseRace, raceTimeout, Settled.time]
    rw [if_pos (by omega)]
  · intro h
    simp only [Test.run, promiseRace, raceTimeout, Settled.time]
    rw [if_neg (by omega)]
  · intro h
    simp only [Test.run, promiseRace, raceTimeout, Settled.time]
    rw [if_neg (by omega)]

/-- Witness for C5 at concrete durations (t = 5 < T = 10 and
t = 20 > T = 10). -/
theorem c5_timeout_race_witness :
    (Test.run ⟨"w", .asyncResolve 5 "ok", 10, "pending"⟩).1 = .fulfilled 5 "ok" ∧
    (Test.run ⟨"w", .asyncResolve 20 "ok", 10, "pending"⟩).1 =
      .rejected 10 (timeoutErr 10) ∧
    (timeoutErr 10).msg = "Timeout expired [" ++ toString 10 ++ "]" :=
  ⟨(c5_timeout_race "w" "ok" ⟨"Error", "x"⟩ 10 5).1 (by decide),
   (c5_timeout_race "w" "ok" ⟨"Error", "x"⟩ 10 20).2.1 (by decide),
   (c5_timeout_race "w" "ok" ⟨"Error", "x"⟩ 10 20).2.2.2⟩

/-- Claim C6 evaluated at the failing inputs: `Test.run` leaves
`state = "passed"` although the run rejects — for an asynchronously
rejecting work function and for a timeout.  The code assigns
`this.state = 'passed'` as soon as `testFn` returns without throwing
(src/unnamed/part_001 line 44), before the returned future settles, so
the claimed pending -> failed transition on asynchronous rejection or
timeout never happens. -/
theorem c6_code_bug_state_passed_on_async_failure :
    Test.run ⟨"t", .asyncReject 1 ⟨"Error", "boom"⟩, 10000, "pending"⟩ =
      (.rejected 1 ⟨"Error", "boom"⟩, "passed") ∧
    Test.run ⟨"t2", .asyncResolve 20000 "late", 10000, "pending"⟩ =
      (.rejected 10000 (timeoutErr 10000), "passed") := by
  constructor
  · rfl
  · rfl


/-- Traversal of an empty child list does nothing. -/
theorem runChildren_nil (st : RunnerState) : runChildren [] st = st := by
  rw [runChildren]

/-- Unfolding step of the child traversal. -/
theorem runChildren_cons (a : NodeAction) (n : Nat) (gs cs : List Tom)
    (st : RunnerState) :
    runChildren (Tom.mk a n gs :: cs) st =
      runChildren cs (runChildren gs (childRunCatch st (Tom.mk a n gs))) := by
  rw [runChildren]

/-- `setState('in-progress')` from 'pending' commits and emits. -/
theorem setStateCore_pending_ip (x : Option Nat) :
    setStateCore "pending" runnerMoves "in-progress" x =
      (.ok [.stateChange "in-progress" "pending", .named "in-progress" x],
       "in-progress") := rfl

/-- `setState('fail')` from 'in-progress' commits and emits. -/
theorem setStateCore_ip_fail (x : Option Nat) :
    setStateCore "in-progress" runnerMoves "fail" x =
      (.ok [.stateChange "fail" "in-progress", .named "fail" x], "fail") := rfl

/-- `setState('fail')` from 'fail' is a no-op. -/
theorem setStateCore_fail_fail (x : Option Nat) :
    setStateCore "fail" runnerMoves "fail" x = (.ok [], "fail") := rfl

/-- `setState('pass')` from 'in-progress' commits and emits. -/
theorem setStateCore_ip_pass (x : Option Nat) :
    setStateCore "in-progress" runnerMoves "pass" x =
      (.ok [.stateChange "pass" "in-progress", .named "pass" x], "pass") := rfl

/-- `setState('in-progress')` from 'pass' throws INVALID_MOVE. -/
theorem setStateCore_pass_ip (x : Option Nat) :
    setStateCore "pass" runnerMoves "in-progress" x =
      (.error ⟨"INVALID_MOVE", canOnlyMsg runnerMoves "in-progress" "pass"⟩,
       "pass") := rfl

/-- `setState('in-progress')` from 'fail' throws INVALID_MOVE. -/
theorem setStateCore_fail_ip (x : Option Nat) :
    setStateCore "fail" runnerMoves "in-progress" x =
      (.error ⟨"INVALID_MOVE", canOnlyMsg runnerMoves "in-progress" "fail"⟩,
       "fail") := rfl

/-- The runner transition pending -> in-progress succeeds, appending
its two events. -/
theorem applySM_pending_ip (st : RunnerState) (c : Option Nat)
    (h : st.smState = "pending") :
    applySM st "in-progress" c =
      .ok { st with
        smState := "in-progress"
        events := st.events ++
          [.smEv (.stateChange "in-progress" "pending"),
           .smEv (.named "in-progress" c)] } := by
  simp only [applySM, h, setStateCore_pending_ip, List.map_cons, List.map_nil]

/-- The runner transition in-progress -> fail succeeds. -/
theorem applySM_fail_of_ip (st : RunnerState) (c : Option Nat)
    (h : st.smState = "in-progress") :
    applySM st "fail" c =
      .ok { st with
        smState := "fail"
        events := st.events ++
          [.smEv (.stateChange "fail" "in-progress"),
           .smEv (.named "fail" c)] } := by
  simp only [applySM, h, setStateCore_ip_fail, List.map_cons, List.map_nil]

/-- The runner transition in-progress -> pass succeeds. -/
theorem applySM_pass_of_ip (st : RunnerState) (c : Option Nat)
    (h : st.smState = "in-progress") :
    applySM st "pass" c =
      .ok { st with
        smState := "pass"
        events := st.events ++
          [.smEv (.stateChange "pass" "in-progress"),
           .smEv (.named "pass" c)] } := by
  simp only [applySM, h, setStateCore_ip_pass, List.map_cons, List.map_nil]

/-- A job's `this.state = 'fail'` from in-progress commits. -/
theorem applySMSwallow_fail_of_ip (st : RunnerState) (c : Option Nat)
    (h : st.smState = "in-progress") :
    applySMSwallow st "fail" c =
      { st with
        smState := "fail"
        events := st.events ++
          [.smEv (.stateChange "fail" "in-progress"),
           .smEv (.named "fail" c)] } := by
  simp only [applySMSwallow, h, setStateCore_ip_fail, List.map_cons, List.map_nil]

/-- A job's `this.state = 'fail'` when already failed changes
nothing. -/
theorem applySMSwallow_fail_of_fail (st : RunnerState) (c : Option Nat)
    (h : st.smState = "fail") :
    applySMSwallow st "fail" c = st := by
  simp only [applySMSwallow, h, setStateCore_fail_fail, List.map_nil,
    List.append_nil]
  cases st
  simp_all

/-- The TOM event handlers touch only stats and the event log. -/
theorem foldl_handleTomEv_sm (tevs : List TomEv) :
    ∀ st : RunnerState,
      (tevs.foldl handleTomEv st).smState = st.smState ∧
      (tevs.foldl handleTomEv st).ended = st.ended := by
  induction tevs with
  | nil => intro st; exact ⟨rfl, rfl⟩
  | cons e rest ih =>
    intro st
    rw [List.foldl_cons]
    refine ⟨?_, ?_⟩
    · rw [(ih (handleTomEv st e)).1]
      cases e <;> rfl
    · rw [(ih (handleTomEv st e)).2]
      cases e <;> rfl

/-- Running one child moves the machine to 'fail' exactly when the
child's run rejects (or it was already failed), and never touches the
ended flag. -/
theorem childRunCatch_sm (st : RunnerState) (t : Tom)
    (h : st.smState = "in-progress" ∨ st.smState = "fail") :
    ((childRunCatch st t).smState =
      (if isFailAction t.action || (st.smState == "fail") then "fail"
       else st.smState)) ∧
    (childRunCatch st t).ended = st.ended := by
  unfold childRunCatch
  cases ht : t.action with
  | failA e =>
    simp only [nodeRun, ht]
    have hst1 := foldl_handleTomEv_sm [TomEv.tStart, TomEv.tFail e] st
    rcases h with h | h
    · rw [applySMSwallow_fail_of_ip _ none (by rw [hst1.1]; exact h)]
      constructor
      · simp [isFailAction]
      · exact hst1.2
    · rw [applySMSwallow_fail_of_fail _ none (by rw [hst1.1]; exact h)]
      constructor
      · have hsm : (List.foldl handleTomEv st
            [TomEv.tStart, TomEv.tFail e]).smState = "fail" := by
          rw [hst1.1]; exact h
        simp only [List.foldl_cons, List.foldl_nil] at hsm
        simp [isFailAction, hsm]
      · exact hst1.2
  | passA v =>
    simp only [nodeRun, ht]
    have hst1 := foldl_handleTomEv_sm [TomEv.tStart, TomEv.tPass v] st
    constructor
    · rw [hst1.1]
      rcases h with h | h <;> simp [isFailAction, h]
    · exact hst1.2
  | skipA =>
    simp only [nodeRun, ht]
    have hst1 := foldl_handleTomEv_sm [TomEv.tSkipped] st
    constructor
    · rw [hst1.1]
      rcases h with h | h <;> simp [isFailAction, h]
    · exact hst1.2
  | noFnA =>
    simp only [nodeRun, ht]
    have hst1 := foldl_handleTomEv_sm ([] : List TomEv) st
    constructor
    · rw [hst1.1]
      rcases h with h | h <;> simp [isFailAction, h]
    · exact hst1.2

/-- The full traversal leaves the machine in 'fail' exactly when it
started there or some descendant's run rejects. -/
theorem runChildren_sm (cs : List Tom) (st : RunnerState)
    (h : st.smState = "in-progress" ∨ st.smState = "fail") :
    ((runChildren cs st).smState =
      (if (st.smState == "fail") || hasFailureList cs then "fail"
       else st.smState)) ∧
    (runChildren cs st).ended = st.ended := by
  match cs with
  | [] =>
    rw [runChildren_nil]
    refine ⟨?_, rfl⟩
    rcases h with h | h <;> simp [hasFailureList, h]
  | Tom.mk a n gs :: cs2 =>
    have h1 := childRunCatch_sm st (Tom.mk a n gs) h
    have hSI1 : (childRunCatch st (Tom.mk a n gs)).smState = "in-progress" ∨
        (childRunCatch st (Tom.mk a n gs)).smState = "fail" := by
      rw [h1.1]
      split_ifs with hc
      · exact Or.inr rfl
      · exact h
    have h2 := runChildren_sm gs (childRunCatch st (Tom.mk a n gs)) hSI1
    have hSI2 : (runChildren gs (childRunCatch st (Tom.mk a n gs))).smState =
        "in-progress" ∨
        (runChildren gs (childRunCatch st (Tom.mk a n gs))).smState = "fail" := by
      rw [h2.1]
      split_ifs with hc
      · exact Or.inr rfl
      · exact hSI1
    have h3 := runChildren_sm cs2
      (runChildren gs (childRunCatch st (Tom.mk a n gs))) hSI2
    rw [runChildren_cons]
    refine ⟨?_, ?_⟩
    · rw [h3.1, h2.1, h1.1]
      simp only [Tom.action]
      have hif : (("in-progress" : String) == "fail") = false := by decide
      have hff : (("fail" : String) == "fail") = true := by decide
      rcases h with h | h <;> rw [h] <;>
        rcases Bool.eq_false_or_eq_true (isFailAction a) with hfa | hfa <;>
        rcases Bool.eq_false_or_eq_true (hasFailureList gs) with hg | hg <;>
        rcases Bool.eq_false_or_eq_true (hasFailureList cs2) with hc2 | hc2 <;>
        simp [hasFailureList, hfa, hg, hc2, hif, hff]
    · rw [h3.2, h2.2, h1.2]
termination_by sizeOf cs

/-- The root's own run never rejects out of `start()`: the catch
converts a rejection into the in-progress -> fail transition. -/
theorem rootRunCatch_ok (st : RunnerState) (t : Tom)
    (h : st.smState = "in-progress") :
    ∃ st4, rootRunCatch st t = .ok st4 ∧
      st4.smState = (if isFailAction t.action then "fail" else "in-progress") ∧
      st4.ended = st.ended := by
  unfold rootRunCatch
  cases ht : t.action with
  | failA e =>
    simp only [nodeRun, ht]
    have hf := foldl_handleTomEv_sm [TomEv.tStart, TomEv.tFail e] st
    have hf1 : (List.foldl handleTomEv st [TomEv.tStart, TomEv.tFail e]).smState =
        "in-progress" := by rw [hf.1]; exact h
    rw [applySM_fail_of_ip _ none hf1]
    refine ⟨_, rfl, ?_, ?_⟩
    · simp [isFailAction]
    · simpa using hf.2
  | passA v =>
    simp only [nodeRun, ht]
    have hf := foldl_handleTomEv_sm [TomEv.tStart, TomEv.tPass v] st
    refine ⟨_, rfl, ?_, hf.2⟩
    rw [hf.1, h]
    simp [isFailAction]
  | skipA =>
    simp only [nodeRun, ht]
    have hf := foldl_handleTomEv_sm [TomEv.tSkipped] st
    refine ⟨_, rfl, ?_, hf.2⟩
    rw [hf.1, h]
    simp [isFailAction]
  | noFnA =>
    simp only [nodeRun, ht]
    have hf := foldl_handleTomEv_sm ([] : List TomEv) st
    refine ⟨_, rfl, ?_, hf.2⟩
    rw [hf.1, h]
    simp [isFailAction]

/-- The run tail always fulfills: it flips to 'pass' unless 'fail' was
forced, sets `ended`, and its last event is `end` carrying the final
stats snapshot. -/
theorem startFinish_spec (st5 : RunnerState)
    (h : st5.smState = "in-progress" ∨ st5.smState = "fail") :
    ∃ s, startFinish st5 = .ok s ∧
      s.smState = (if st5.smState == "fail" then "fail" else "pass") ∧
      s.ended = true ∧
      s.events.getLast? = some (.endEv s.stats) := by
  unfold startFinish
  simp only []
  rcases h with h | h
  · have h6 : ({ st5 with ended := true } : RunnerState).smState =
        "in-progress" := h
    have hcond : (({ st5 with ended := true } : RunnerState).smState != "fail") =
        true := by rw [h6]; decide
    rw [hcond]
    simp only [if_true]
    rw [applySM_pass_of_ip _ none h6]
    refine ⟨_, rfl, ?_, rfl, ?_⟩
    · simp [h]
    · simp [List.getLast?_concat]
  · have h6 : ({ st5 with ended := true } : RunnerState).smState = "fail" := h
    have hcond : (({ st5 with ended := true } : RunnerState).smState != "fail") =
        false := by rw [h6]; decide
    rw [hcond]
    simp only [Bool.false_eq_true, if_false]
    refine ⟨_, rfl, ?_, rfl, ?_⟩
    · simp [h]
    · simp [List.getLast?_concat]

/-- From 'in-progress', the remainder of `start()` fulfills with final
state 'fail' exactly when some node's run rejects. -/
theorem startAfterSM_spec (tom : Tom) (st3 : RunnerState)
    (h : st3.smState = "in-progress") :
    ∃ s, startAfterSM tom st3 = .ok s ∧
      s.smState = (if hasFailure tom then "fail" else "pass") ∧
      s.ended = true ∧
      s.events.getLast? = some (.endEv s.stats) := by
  unfold startAfterSM
  obtain ⟨st4, hrr, h4sm, h4end⟩ := rootRunCatch_ok st3 tom h
  rw [hrr]
  simp only []
  have hSI4 : st4.smState = "in-progress" ∨ st4.smState = "fail" := by
    rw [h4sm]
    split_ifs
    · exact Or.inr rfl
    · exact Or.inl rfl
  have h5 := runChildren_sm tom.children st4 hSI4
  have hSI5 : (runChildren tom.children st4).smState = "in-progress" ∨
      (runChildren tom.children st4).smState = "fail" := by
    rw [h5.1]
    split_ifs
    · exact Or.inr rfl
    · exact hSI4
  have hrtn : runTomNode tom st4 = runChildren tom.children st4 := rfl
  rw [hrtn]
  obtain ⟨s, hfin, hsm, hend, hlast⟩ := startFinish_spec _ hSI5
  refine ⟨s, hfin, ?_, hend, hlast⟩
  rw [hsm, h5.1, h4sm]
  have hif : (("in-progress" : String) == "fail") = false := by decide
  have hff : (("fail" : String) == "fail") = true := by decide
  rcases Bool.eq_false_or_eq_true (isFailAction tom.action) with hfa | hfa <;>
    rcases Bool.eq_false_or_eq_true (hasFailureList tom.children) with hg | hg <;>
    simp [hasFailure, hfa, hg, hif, hff]

/-- From 'pending', `start()` fulfills with the expected final state
and a trailing `end` event. -/
theorem startSM_pending_spec (tom : Tom) (st1 : RunnerState)
    (h : st1.smState = "pending") :
    ∃ s, startSM tom st1 = .ok s ∧
      s.smState = (if hasFailure tom then "fail" else "pass") ∧
      s.ended = true ∧
      s.events.getLast? = some (.endEv s.stats) := by
  unfold startSM
  simp only []
  rw [applySM_pending_ip st1 (some (countTests tom)) h]
  exact startAfterSM_spec tom _ rfl

/-- `start()` on a pending runner fulfills; final state reflects
whether any unit failed; `end` fires last with the stats snapshot. -/
theorem startFrom_pending_spec (tom : Tom) (st0 : RunnerState)
    (h : st0.smState = "pending") :
    ∃ s, startFrom tom st0 = .ok s ∧
      s.smState = (if hasFailure tom then "fail" else "pass") ∧
      s.ended = true ∧
      s.events.getLast? = some (.endEv s.stats) := by
  unfold startFrom
  exact startSM_pending_spec tom _ h

/-- A second in-progress transition from 'pass' rejects with
INVALID_MOVE. -/
theorem applySM_ip_of_pass (st : RunnerState) (c : Option Nat)
    (h : st.smState = "pass") :
    applySM st "in-progress" c =
      .error ⟨"INVALID_MOVE", canOnlyMsg runnerMoves "in-progress" "pass"⟩ := by
  simp only [applySM, h, setStateCore_pass_ip]

/-- A second in-progress transition from 'fail' rejects with
INVALID_MOVE. -/
theorem applySM_ip_of_fail (st : RunnerState) (c : Option Nat)
    (h : st.smState = "fail") :
    applySM st "in-progress" c =
      .error ⟨"INVALID_MOVE", canOnlyMsg runnerMoves "in-progress" "fail"⟩ := by
  simp only [applySM, h, setStateCore_fail_ip]

/-- Claim C1: for every test tree, `start()` fulfills — unit-level
failures (at the TOM interface, any rejecting `run()`: a work function
throwing, its future rejecting, or a timeout) are captured at the job
boundary and never rethrown to the caller; whenever any unit fails the
runner's final state is "fail" (otherwise "pass"), the run is marked
ended, and the last emitted event is `end` carrying the final Stats
snapshot. -/
theorem c1_start_never_rethrows (tom : Tom) :
    ∃ s, start tom = .ok s ∧
      s.smState = (if hasFailure tom then "fail" else "pass") ∧
      s.ended = true ∧
      s.events.getLast? = some (.endEv s.stats) :=
  startFrom_pending_spec tom initRunner rfl

/-- The empty tree has no executable work. -/
theorem countTests_emptyTom : countTests emptyTom = 0 := by
  simp [countTests, emptyTom, Tom.children, Tom.action, hasTestFn, countTestsList]

/-- Full evaluation of a run over the empty tree. -/
theorem start_emptyTom_eval :
    start emptyTom = .ok
      { smState := "pass"
        stats := {}
        events := [.smEv (.stateChange "in-progress" "pending"),
                   .smEv (.named "in-progress" (some 0)),
                   .startEv 0,
                   .smEv (.stateChange "pass" "in-progress"),
                   .smEv (.named "pass" none),
                   .endEv {}]
        ended := true } := by
  unfold start startFrom startSM
  simp only [countTests_emptyTom]
  rw [applySM_pending_ip _ (some 0) rfl]
  simp only []
  show startAfterSM emptyTom
      { smState := "in-progress"
        stats := {}
        events := [.smEv (.stateChange "in-progress" "pending"),
                   .smEv (.named "in-progress" (some 0)),
                   .startEv 0]
        ended := false } = _
  have hmid : startAfterSM emptyTom
      { smState := "in-progress"
        stats := {}
        events := [.smEv (.stateChange "in-progress" "pending"),
                   .smEv (.named "in-progress" (some 0)),
                   .startEv 0]
        ended := false } = startFinish (runChildren ([] : List Tom)
      { smState := "in-progress"
        stats := {}
        events := [.smEv (.stateChange "in-progress" "pending"),
                   .smEv (.named "in-progress" (some 0)),
                   .startEv 0]
        ended := false }) := rfl
  rw [hmid, runChildren_nil]
  rfl

/-- Claim C9: on the empty tree, `start()` fulfills after transitioning
pending -> in-progress -> pass (visible as the two state events), emits
the public `start` event with count 0, and then the `end` event whose
Stats snapshot has total = 0. -/
theorem c9_empty_tree_run :
    start emptyTom = .ok
      { smState := "pass"
        stats := {}
        events := [.smEv (.stateChange "in-progress" "pending"),
                   .smEv (.named "in-progress" (some 0)),
                   .startEv 0,
                   .smEv (.stateChange "pass" "in-progress"),
                   .smEv (.named "pass" none),
                   .endEv {}]
        ended := true } := start_emptyTom_eval

/-- Claim C10 (implicit): once a run has completed (final state 'pass'
or 'fail'), a second `start()` rejects with an INVALID_MOVE error at
its `setState('in-progress')`, because the declared moves admit
'in-progress' only from 'pending'. -/
theorem c10_restart_invalid_move (tom : Tom) (s : RunnerState) (h : start tom = .ok s) :
    ∃ e, startFrom tom s = .error e ∧ e.name = "INVALID_MOVE" := by
  obtain ⟨s2, hs2, hsm, -, -⟩ := startFrom_pending_spec tom initRunner rfl
  have hss : s = s2 := by
    rw [start] at h
    rw [h] at hs2
    exact (Except.ok.inj hs2)
  subst hss
  unfold startFrom startSM
  simp only []
  rcases Bool.eq_false_or_eq_true (hasFailure tom) with hf | hf
  · have h1 : ({ s with stats.total := countTests tom, stats.start := 0 } :
        RunnerState).smState = "fail" := by
      show s.smState = "fail"
      rw [hsm, hf]
      simp
    rw [applySM_ip_of_fail _ _ h1]
    exact ⟨_, rfl, rfl⟩
  · have h1 : ({ s with stats.total := countTests tom, stats.start := 0 } :
        RunnerState).smState = "pass" := by
      show s.smState = "pass"
      rw [hsm, hf]
      simp
    rw [applySM_ip_of_pass _ _ h1]
    exact ⟨_, rfl, rfl⟩

/-- Witness for C10: restarting after the empty-tree run rejects with
INVALID_MOVE. -/
theorem c10_restart_invalid_move_witness :
    ∃ e, startFrom emptyTom
      { smState := "pass"
        stats := {}
        events := [.smEv (.stateChange "in-progress" "pending"),
                   .smEv (.named "in-progress" (some 0)),
                   .startEv 0,
                   .smEv (.stateChange "pass" "in-progress"),
                   .smEv (.named "pass" none),
                   .endEv {}]
        ended := true } = .error e ∧ e.name = "INVALID_MOVE" :=
  c10_restart_invalid_move emptyTom _ start_emptyTom_eval
